import Mathlib

/-!
Shallow embedding of the circuitchat sources (noise_peer.rs, noise_client.rs,
file_transfer.rs, storage.rs, tui.rs, main.rs) and proofs about them.

Bytes are modelled as `Nat` values (< 256 on the wire); byte strings as
`List Nat`.  Machine-integer casts (`as u32`, `as u16`) are made explicit
with `% 2 ^ w` where the source can overflow.
-/

namespace CircuitChat

/-! ## Big-endian integer encodings

Mirrors `u32::to_be_bytes` / `u32::from_be_bytes` and the `u64` variants used
by the frame codec and by `encode_offer` / `parse_message`. -/

/-- Big-endian byte encoding of a `u32` value (`(n as u32).to_be_bytes()`).
Taking each byte as `n / 2 ^ k % 256` makes the `as u32` truncation implicit:
the result depends only on `n % 2 ^ 32`. -/
def u32ToBeBytes (n : Nat) : List Nat :=
  [n / 2 ^ 24 % 256, n / 2 ^ 16 % 256, n / 2 ^ 8 % 256, n % 256]

/-- Mirrors `u32::from_be_bytes` on a 4-byte list (all uses are guarded by a length
check, so the catch-all value is never relevant). -/
def u32FromBeBytes : List Nat → Nat
  | [a, b, c, d] => a * 2 ^ 24 + b * 2 ^ 16 + c * 2 ^ 8 + d
  | _ => 0

/-- Big-endian byte encoding of a `u64` value (`size.to_be_bytes()`). -/
def u64ToBeBytes (n : Nat) : List Nat :=
  [n / 2 ^ 56 % 256, n / 2 ^ 48 % 256, n / 2 ^ 40 % 256, n / 2 ^ 32 % 256,
   n / 2 ^ 24 % 256, n / 2 ^ 16 % 256, n / 2 ^ 8 % 256, n % 256]

/-- Mirrors `u64::from_be_bytes` on an 8-byte list. -/
def u64FromBeBytes : List Nat → Nat
  | [a, b, c, d, e, f, g, h] =>
      a * 2 ^ 56 + b * 2 ^ 48 + c * 2 ^ 40 + d * 2 ^ 32 +
      e * 2 ^ 24 + f * 2 ^ 16 + g * 2 ^ 8 + h
  | _ => 0

theorem u32FromBeBytes_u32ToBeBytes (n : Nat) (h : n < 2 ^ 32) :
    u32FromBeBytes (u32ToBeBytes n) = n := by
  simp only [u32ToBeBytes, u32FromBeBytes]
  omega

theorem u64FromBeBytes_u64ToBeBytes (n : Nat) (h : n < 2 ^ 64) :
    u64FromBeBytes (u64ToBeBytes n) = n := by
  simp only [u64ToBeBytes, u64FromBeBytes]
  omega

theorem length_u32ToBeBytes (n : Nat) : (u32ToBeBytes n).length = 4 := rfl

theorem length_u64ToBeBytes (n : Nat) : (u64ToBeBytes n).length = 8 := rfl

/-! ## Frame codec (noise_peer.rs `send_frame` / `recv_frame`)

`send_frame` models the bytes written to a non-erroring stream: the source
(noise_peer.rs lines 94-103, and the identical synchronous version in
noise_client.rs lines 59-65) writes `(data.len() as u32).to_be_bytes()`,
then the payload, then flushes — it contains no size check, so on a healthy
stream it cannot fail.  `recv_frame` models a read over an available byte
sequence `input`; a too-short `input` stands for the reader hitting EOF. -/

/-- The exact bytes `send_frame` writes to the stream for a given payload. -/
def send_frame (data : List Nat) : List Nat :=
  u32ToBeBytes data.length ++ data

/-- Runs `recv_frame` over the available bytes `input`; returns the payload and
the bytes left unread.  Mirrors noise_client.rs lines 67-90 / noise_peer.rs
lines 105-115: read 4 length bytes, reject lengths over 65535, then read
exactly `len` payload bytes. -/
def recv_frame (input : List Nat) : Except String (List Nat × List Nat) :=
  if input.length < 4 then
    .error "unexpected eof"
  else
    let len := u32FromBeBytes (input.take 4)
    if 65535 < len then
      .error "frame too large"
    else if input.length < 4 + len then
      .error "unexpected eof"
    else
      .ok ((input.drop 4).take len, input.drop (4 + len))

theorem recv_frame_send_frame (payload extra : List Nat)
    (h : payload.length ≤ 65535) :
    recv_frame (send_frame payload ++ extra) = .ok (payload, extra) := by
  have hlen : (u32ToBeBytes payload.length).length = 4 := rfl
  have htake : (send_frame payload ++ extra).take 4 = u32ToBeBytes payload.length := by
    rw [send_frame, List.append_assoc, ← hlen, List.take_left]
  have hfrom : u32FromBeBytes ((send_frame payload ++ extra).take 4) = payload.length := by
    rw [htake]
    exact u32FromBeBytes_u32ToBeBytes _ (by omega)
  have hdrop : (send_frame payload ++ extra).drop 4 = payload ++ extra := by
    rw [send_frame, List.append_assoc, ← hlen, List.drop_left]
  have htotal : (send_frame payload ++ extra).length = 4 + payload.length + extra.length := by
    simp [send_frame]
    omega
  rw [recv_frame]
  rw [if_neg (by omega)]
  simp only [hfrom]
  rw [if_neg (by omega), if_neg (by omega)]
  congr 1
  have hdrop2 : (send_frame payload ++ extra).drop (4 + payload.length) = extra := by
    rw [← List.drop_drop, hdrop, List.drop_left]
  rw [hdrop, hdrop2, List.take_left]

/-- C1. The claim says `write_frame` fails for payloads over 65535 bytes,
rejecting them before writing anything to the stream.  The source
`send_frame` has no such check: on a 70000-byte payload it writes the whole
74-KB frame (4-byte length plus payload) to the stream instead of failing. -/
theorem send_frame_oversize_writes :
    send_frame (List.replicate 70000 0) =
      u32ToBeBytes 70000 ++ List.replicate 70000 0 ∧
    (send_frame (List.replicate 70000 0)).length = 70004 := by
  constructor
  · rw [send_frame, List.length_replicate]
  · rw [send_frame, List.length_append, length_u32ToBeBytes, List.length_replicate]

/-- C1 (amended): `send_frame` never rejects a payload; for every payload it
writes exactly `be_u32(len) || payload` and flushes.  The 65535-byte bound is
enforced on the read side only: any frame whose payload fits the bound round
trips through `recv_frame`, and `recv_frame` rejects larger declared
lengths with a frame-too-large error. -/
theorem send_frame_total_and_bounded_roundtrip (payload extra : List Nat)
    (h : payload.length ≤ 65535) :
    send_frame payload = u32ToBeBytes payload.length ++ payload ∧
    recv_frame (send_frame payload ++ extra) = .ok (payload, extra) ∧
    (∀ input : List Nat, 4 ≤ input.length →
      65535 < u32FromBeBytes (input.take 4) →
      recv_frame input = .error "frame too large") := by
  refine ⟨rfl, recv_frame_send_frame payload extra h, ?_⟩
  intro input hlen hbig
  rw [recv_frame, if_neg (by omega), if_pos hbig]

/-- C1 witness: the amended statement evaluated at the 5-byte payload
`[1, 2, 3, 4, 5]` followed by the leftover byte `9`. -/
theorem send_frame_total_and_bounded_roundtrip_witness :
    send_frame [1, 2, 3, 4, 5] = u32ToBeBytes 5 ++ [1, 2, 3, 4, 5] ∧
    recv_frame (send_frame [1, 2, 3, 4, 5] ++ [9]) = .ok ([1, 2, 3, 4, 5], [9]) ∧
    (∀ input : List Nat, 4 ≤ input.length →
      65535 < u32FromBeBytes (input.take 4) →
      recv_frame input = .error "frame too large") :=
  send_frame_total_and_bounded_roundtrip [1, 2, 3, 4, 5] [9] (by decide)

/-! ## UTF-8

`str::as_bytes` on a Rust `String` is UTF-8 encoding of its characters;
`String::from_utf8_lossy` is strict UTF-8 decoding where every maximal
invalid subsequence is replaced by U+FFFD (one replacement per error,
resuming at the first byte that does not fit the current sequence). -/

/-- UTF-8 encoding of a single scalar value (`str::as_bytes`, per char). -/
def utf8EncodeChar (c : Char) : List Nat :=
  let n := c.toNat
  if n < 0x80 then [n]
  else if n < 0x800 then [0xC0 + n / 64, 0x80 + n % 64]
  else if n < 0x10000 then
    [0xE0 + n / 4096, 0x80 + n / 64 % 64, 0x80 + n % 64]
  else
    [0xF0 + n / 262144, 0x80 + n / 4096 % 64, 0x80 + n / 64 % 64, 0x80 + n % 64]

/-- The bytes of a Rust `String` (`s.as_bytes()`). -/
def utf8Encode (s : String) : List Nat :=
  (s.data.map utf8EncodeChar).flatten

/-- U+FFFD, the replacement character emitted by `from_utf8_lossy`. -/
def replacementChar : Char := Char.ofNat 0xFFFD

/-- Decode one UTF-8 sequence (or one maximal invalid subsequence, yielding
the replacement character) from the front of the byte list, returning the
decoded character and the undecoded remainder.  The continuation-byte ranges
(including the tightened second-byte ranges after 0xE0/0xED/0xF0/0xF4) match
the strict decoder used by `String::from_utf8_lossy`. -/
def utf8DecodeStep : List Nat → Char × List Nat
  | [] => (replacementChar, [])
  | b :: rest =>
    if b ≤ 0x7F then (Char.ofNat b, rest)
    else if 0xC2 ≤ b ∧ b ≤ 0xDF then
      match rest with
      | b1 :: r1 =>
        if 0x80 ≤ b1 ∧ b1 ≤ 0xBF then
          (Char.ofNat ((b - 0xC0) * 64 + (b1 - 0x80)), r1)
        else (replacementChar, b1 :: r1)
      | [] => (replacementChar, [])
    else if 0xE0 ≤ b ∧ b ≤ 0xEF then
      match rest with
      | b1 :: r1 =>
        if (b = 0xE0 → 0xA0 ≤ b1) ∧ (b = 0xED → b1 ≤ 0x9F) ∧
            0x80 ≤ b1 ∧ b1 ≤ 0xBF then
          match r1 with
          | b2 :: r2 =>
            if 0x80 ≤ b2 ∧ b2 ≤ 0xBF then
              (Char.ofNat ((b - 0xE0) * 4096 + (b1 - 0x80) * 64 + (b2 - 0x80)), r2)
            else (replacementChar, b2 :: r2)
          | [] => (replacementChar, [])
        else (replacementChar, b1 :: r1)
      | [] => (replacementChar, [])
    else if 0xF0 ≤ b ∧ b ≤ 0xF4 then
      match rest with
      | b1 :: r1 =>
        if (b = 0xF0 → 0x90 ≤ b1) ∧ (b = 0xF4 → b1 ≤ 0x8F) ∧
            0x80 ≤ b1 ∧ b1 ≤ 0xBF then
          match r1 with
          | b2 :: r2 =>
            if 0x80 ≤ b2 ∧ b2 ≤ 0xBF then
              match r2 with
              | b3 :: r3 =>
                if 0x80 ≤ b3 ∧ b3 ≤ 0xBF then
                  (Char.ofNat ((b - 0xF0) * 262144 + (b1 - 0x80) * 4096 +
                    (b2 - 0x80) * 64 + (b3 - 0x80)), r3)
                else (replacementChar, b3 :: r3)
              | [] => (replacementChar, [])
            else (replacementChar, b2 :: r2)
          | [] => (replacementChar, [])
        else (replacementChar, b1 :: r1)
      | [] => (replacementChar, [])
    else (replacementChar, rest)

theorem utf8DecodeStep_length (b : Nat) (rest : List Nat) :
    (utf8DecodeStep (b :: rest)).2.length ≤ rest.length := by
  simp only [utf8DecodeStep.eq_def]
  repeat' split
  all_goals simp_all
  all_goals omega

/-- Decode a whole byte list (`String::from_utf8_lossy`, as a char list). -/
def utf8DecodeLoop (l : List Nat) : List Char :=
  match l with
  | [] => []
  | b :: rest =>
    (utf8DecodeStep (b :: rest)).1 :: utf8DecodeLoop (utf8DecodeStep (b :: rest)).2
termination_by l.length
decreasing_by
  have h := utf8DecodeStep_length b rest
  simp only [List.length_cons]
  omega

/-- Mirrors `String::from_utf8_lossy(data).to_string()`. -/
def utf8Lossy (l : List Nat) : String := ⟨utf8DecodeLoop l⟩

theorem char_toNat_valid (c : Char) :
    c.toNat < 0xD800 ∨ (0xDFFF < c.toNat ∧ c.toNat < 0x110000) := by
  rcases c.valid with h | h
  · left
    exact_mod_cast h
  · right
    exact ⟨by exact_mod_cast h.1, by exact_mod_cast h.2⟩

theorem utf8DecodeStep_utf8EncodeChar (c : Char) (rest : List Nat) :
    utf8DecodeStep (utf8EncodeChar c ++ rest) = (c, rest) := by
  have hv := char_toNat_valid c
  rw [utf8EncodeChar]
  by_cases h1 : c.toNat < 0x80
  · simp only [h1, if_pos]
    rw [List.cons_append, List.nil_append]
    simp only [utf8DecodeStep.eq_def]
    rw [if_pos (by omega : c.toNat ≤ 0x7F), Char.ofNat_toNat]
  · rw [if_neg h1]
    by_cases h2 : c.toNat < 0x800
    · simp only [h2, if_pos]
      rw [List.cons_append, List.cons_append, List.nil_append]
      simp only [utf8DecodeStep.eq_def]
      rw [if_neg (by omega), if_pos (by constructor <;> omega)]
      have hval : (0xC0 + c.toNat / 64 - 0xC0) * 64 + (0x80 + c.toNat % 64 - 0x80)
          = c.toNat := by omega
      rw [if_pos (by constructor <;> omega), hval, Char.ofNat_toNat]
    · rw [if_neg h2]
      by_cases h3 : c.toNat < 0x10000
      · simp only [h3, if_pos]
        rw [List.cons_append, List.cons_append, List.cons_append, List.nil_append]
        simp only [utf8DecodeStep.eq_def]
        rw [if_neg (by omega), if_neg (by omega),
          if_pos (by constructor <;> omega)]
        rw [if_pos (by refine ⟨?_, ?_, ?_, ?_⟩ <;> omega)]
        have hval : (0xE0 + c.toNat / 4096 - 0xE0) * 4096 +
            (0x80 + c.toNat / 64 % 64 - 0x80) * 64 + (0x80 + c.toNat % 64 - 0x80)
            = c.toNat := by omega
        rw [if_pos (by constructor <;> omega), hval, Char.ofNat_toNat]
      · rw [if_neg h3]
        rw [List.cons_append, List.cons_append, List.cons_append, List.cons_append,
          List.nil_append]
        simp only [utf8DecodeStep.eq_def]
        rw [if_neg (by omega), if_neg (by omega),
          if_neg (by omega), if_pos (by constructor <;> omega)]
        rw [if_pos (by refine ⟨?_, ?_, ?_, ?_⟩ <;> omega)]
        rw [if_pos (by constructor <;> omega)]
        have hval : (0xF0 + c.toNat / 262144 - 0xF0) * 262144 +
            (0x80 + c.toNat / 4096 % 64 - 0x80) * 4096 +
            (0x80 + c.toNat / 64 % 64 - 0x80) * 64 + (0x80 + c.toNat % 64 - 0x80)
            = c.toNat := by omega
        rw [if_pos (by constructor <;> omega), hval, Char.ofNat_toNat]

theorem utf8EncodeChar_ne_nil (c : Char) : utf8EncodeChar c ≠ [] := by
  rw [utf8EncodeChar]
  repeat' split
  all_goals simp

theorem utf8DecodeLoop_utf8EncodeChar (c : Char) (rest : List Nat) :
    utf8DecodeLoop (utf8EncodeChar c ++ rest) = c :: utf8DecodeLoop rest := by
  cases hE : utf8EncodeChar c ++ rest with
  | nil =>
    exact absurd (List.append_eq_nil.mp hE).1 (utf8EncodeChar_ne_nil c)
  | cons b t =>
    rw [utf8DecodeLoop, ← hE, utf8DecodeStep_utf8EncodeChar]

theorem utf8DecodeLoop_flatten_map (cs : List Char) :
    utf8DecodeLoop ((cs.map utf8EncodeChar).flatten) = cs := by
  induction cs with
  | nil =>
    simp only [List.map_nil, List.flatten_nil]
    rw [utf8DecodeLoop]
  | cons c cs ih =>
    rw [List.map_cons, List.flatten_cons, utf8DecodeLoop_utf8EncodeChar, ih]

theorem utf8Lossy_utf8Encode (s : String) : utf8Lossy (utf8Encode s) = s := by
  rw [utf8Lossy, utf8Encode, utf8DecodeLoop_flatten_map]

theorem utf8Encode_injective (s t : String) (h : utf8Encode s = utf8Encode t) :
    s = t := by
  have := congrArg utf8Lossy h
  rwa [utf8Lossy_utf8Encode, utf8Lossy_utf8Encode] at this

/-! ## Application frame protocol (file_transfer.rs) -/

def CHUNK_SIZE : Nat := 60000
def OFFER_TAG : Nat := 0x46
def CHUNK_TAG : Nat := 0x43
def DONE_TAG : Nat := 0x44
def CANCEL_TAG : Nat := 0x58
def MSG_FILE_ACCEPT : Nat := 0x05
def MSG_FILE_REJECT : Nat := 0x06
def MSG_TYPING_START : Nat := 0x07
def MSG_TYPING_STOP : Nat := 0x08
def MSG_DELIVERED : Nat := 0x09

def encode_typing_start : List Nat := [0x00, MSG_TYPING_START]

def encode_typing_stop : List Nat := [0x00, MSG_TYPING_STOP]

def encode_delivered : List Nat := [0x00, MSG_DELIVERED]

def encode_accept : List Nat := [0x00, MSG_FILE_ACCEPT]

def encode_reject : List Nat := [0x00, MSG_FILE_REJECT]

/-- file_transfer.rs `encode_offer`: `[0x00, b'F'] || size.to_be_bytes() || name.as_bytes()`. -/
def encode_offer (name : String) (size : Nat) : List Nat :=
  0x00 :: OFFER_TAG :: (u64ToBeBytes size ++ utf8Encode name)

/-- file_transfer.rs `encode_chunk`: `[0x00, b'C'] || data`. -/
def encode_chunk (data : List Nat) : List Nat :=
  0x00 :: CHUNK_TAG :: data

def encode_done : List Nat := [0x00, DONE_TAG]

def encode_cancel : List Nat := [0x00, CANCEL_TAG]

inductive ParsedMessage where
  | Text (content : String)
  | FileOffer (name : String) (size : Nat)
  | FileAccept
  | FileReject
  | FileChunk (data : List Nat)
  | FileDone
  | FileCancel
  | TypingStart
  | TypingStop
  | Delivered
deriving DecidableEq

/-- file_transfer.rs `parse_message` (lines 69-90): payloads of length under 2
or whose first byte is not 0x00 are text; otherwise dispatch on the second
byte, with the FileOffer arm additionally guarded by `data.len() >= 10`
(here `8 ≤ rest.length`); unknown second bytes fall through to text. -/
def parse_message (data : List Nat) : ParsedMessage :=
  match data with
  | b0 :: b1 :: rest =>
    if b0 = 0x00 then
      if b1 = OFFER_TAG ∧ 8 ≤ rest.length then
        .FileOffer (utf8Lossy (rest.drop 8)) (u64FromBeBytes (rest.take 8))
      else if b1 = CHUNK_TAG then .FileChunk rest
      else if b1 = DONE_TAG then .FileDone
      else if b1 = CANCEL_TAG then .FileCancel
      else if b1 = MSG_FILE_ACCEPT then .FileAccept
      else if b1 = MSG_FILE_REJECT then .FileReject
      else if b1 = MSG_TYPING_START then .TypingStart
      else if b1 = MSG_TYPING_STOP then .TypingStop
      else if b1 = MSG_DELIVERED then .Delivered
      else .Text (utf8Lossy data)
    else .Text (utf8Lossy data)
  | _ => .Text (utf8Lossy data)

/-- The byte encoding of each message variant: the `encode_*` helpers of
file_transfer.rs for the control variants, and `text.as_bytes()` for user
text (main.rs line 342). -/
def encode_message : ParsedMessage → List Nat
  | .Text s => utf8Encode s
  | .FileOffer name size => encode_offer name size
  | .FileAccept => encode_accept
  | .FileReject => encode_reject
  | .FileChunk data => encode_chunk data
  | .FileDone => encode_done
  | .FileCancel => encode_cancel
  | .TypingStart => encode_typing_start
  | .TypingStop => encode_typing_stop
  | .Delivered => encode_delivered

/-- Discriminator for the Text variant. -/
def ParsedMessage.isText : ParsedMessage → Bool
  | .Text _ => true
  | _ => false

/-- A message is representable on the wire when any FileOffer size fits in a
`u64` (the Rust field type). -/
def ParsedMessage.sizeWF : ParsedMessage → Bool
  | .FileOffer _ size => size < 2 ^ 64
  | _ => true

theorem parse_message_text_short_or_nonzero (data : List Nat)
    (h : data.length < 2 ∨ data.head? ≠ some 0) :
    parse_message data = .Text (utf8Lossy data) := by
  match data with
  | [] => rfl
  | [b] => rfl
  | b0 :: b1 :: rest =>
    rcases h with h | h
    · exfalso
      simp only [List.length_cons] at h
      omega
    · rw [parse_message, if_neg (by simpa using h)]

theorem parse_message_text_unknown_tag (t : Nat) (rest : List Nat)
    (h : t ∉ ([OFFER_TAG, CHUNK_TAG, DONE_TAG, CANCEL_TAG, MSG_FILE_ACCEPT,
      MSG_FILE_REJECT, MSG_TYPING_START, MSG_TYPING_STOP, MSG_DELIVERED] : List Nat)) :
    parse_message (0 :: t :: rest) = .Text (utf8Lossy (0 :: t :: rest)) := by
  simp only [List.mem_cons, List.not_mem_nil, or_false, not_or] at h
  obtain ⟨h1, h2, h3, h4, h5, h6, h7, h8, h9⟩ := h
  rw [parse_message, if_pos rfl, if_neg (fun hc => h1 hc.1), if_neg h2, if_neg h3,
    if_neg h4, if_neg h5, if_neg h6, if_neg h7, if_neg h8, if_neg h9]

theorem parse_message_text_short_offer (rest : List Nat) (h : rest.length < 8) :
    parse_message (0 :: OFFER_TAG :: rest) = .Text (utf8Lossy (0 :: OFFER_TAG :: rest)) := by
  rw [parse_message, if_pos rfl, if_neg (fun hc => absurd hc.2 (by omega)),
    if_neg (by decide), if_neg (by decide), if_neg (by decide), if_neg (by decide),
    if_neg (by decide), if_neg (by decide), if_neg (by decide), if_neg (by decide)]

theorem parse_message_encode_message (v : ParsedMessage)
    (hT : v.isText = false) (hWF : v.sizeWF = true) :
    parse_message (encode_message v) = v := by
  cases v with
  | Text s => simp [ParsedMessage.isText] at hT
  | FileOffer name size =>
    have hsize : size < 2 ^ 64 := by
      simpa [ParsedMessage.sizeWF] using hWF
    show parse_message (0x00 :: OFFER_TAG :: (u64ToBeBytes size ++ utf8Encode name)) = _
    rw [parse_message, if_pos rfl,
      if_pos ⟨rfl, by rw [List.length_append, length_u64ToBeBytes]; omega⟩]
    have ht : (u64ToBeBytes size ++ utf8Encode name).take 8 = u64ToBeBytes size := by
      rw [← length_u64ToBeBytes size, List.take_left]
    have hd : (u64ToBeBytes size ++ utf8Encode name).drop 8 = utf8Encode name := by
      rw [← length_u64ToBeBytes size, List.drop_left]
    rw [ht, hd, u64FromBeBytes_u64ToBeBytes size hsize, utf8Lossy_utf8Encode]
  | FileChunk data =>
    show parse_message (0x00 :: CHUNK_TAG :: data) = _
    rw [parse_message, if_pos rfl, if_neg (fun hc => absurd hc.1 (by decide)),
      if_pos rfl]
  | FileAccept => decide
  | FileReject => decide
  | FileDone => decide
  | FileCancel => decide
  | TypingStart => decide
  | TypingStop => decide
  | Delivered => decide

/-- C4.  `parse_message` classifies every byte sequence per the §4.4 table:
a payload shorter than 2 bytes, or whose first byte is not 0x00, decodes as
Text; a 0x00-led payload with an unrecognized second byte decodes as Text;
and a payload beginning `0x00 'F'` with fewer than 10 total bytes decodes as
Text rather than FileOffer. -/
theorem parse_message_text_classification (data : List Nat)
    (h : data.length < 2 ∨ data.head? ≠ some 0 ∨
      (∃ t rest, data = 0 :: t :: rest ∧
        t ∉ ([OFFER_TAG, CHUNK_TAG, DONE_TAG, CANCEL_TAG, MSG_FILE_ACCEPT,
          MSG_FILE_REJECT, MSG_TYPING_START, MSG_TYPING_STOP,
          MSG_DELIVERED] : List Nat)) ∨
      (data.length < 10 ∧ ∃ rest, data = 0 :: OFFER_TAG :: rest)) :
    parse_message data = .Text (utf8Lossy data) := by
  rcases h with h | h | ⟨t, rest, rfl, ht⟩ | ⟨hlen, rest, rfl⟩
  · exact parse_message_text_short_or_nonzero data (Or.inl h)
  · exact parse_message_text_short_or_nonzero data (Or.inr h)
  · exact parse_message_text_unknown_tag t rest ht
  · refine parse_message_text_short_offer rest ?_
    simp only [List.length_cons] at hlen
    omega

/-- C4 witness: the two-byte payload `[0x00, 'F']` is a FileOffer header with
fewer than 10 bytes, hence Text. -/
theorem parse_message_text_classification_witness :
    parse_message [0, 70] = .Text (utf8Lossy [0, 70]) :=
  parse_message_text_classification [0, 70]
    (Or.inr (Or.inr (Or.inr ⟨by decide, [], rfl⟩)))

/-- C5.  Encode/decode round trip: every non-Text variant (FileOffer sizes
fitting a `u64`) parses back from its encoding; encodings of distinct
non-Text variants are distinct; and every string whose UTF-8 encoding does
not start with byte 0x00 parses back as exactly that Text. -/
theorem encode_message_parse_roundtrip :
    (∀ v : ParsedMessage, v.isText = false → v.sizeWF = true →
      parse_message (encode_message v) = v) ∧
    (∀ v w : ParsedMessage, v.isText = false → w.isText = false →
      v.sizeWF = true → w.sizeWF = true →
      encode_message v = encode_message w → v = w) ∧
    (∀ s : String, (utf8Encode s).head? ≠ some 0 →
      parse_message (utf8Encode s) = .Text s) := by
  refine ⟨parse_message_encode_message, ?_, ?_⟩
  · intro v w hv hw hv2 hw2 h
    have h2 := congrArg parse_message h
    rwa [parse_message_encode_message v hv hv2,
      parse_message_encode_message w hw hw2] at h2
  · intro s h
    rw [parse_message_text_short_or_nonzero (utf8Encode s) (Or.inr h),
      utf8Lossy_utf8Encode]

/-- C5 witness: the round trip at `FileOffer "a" 5` and at the text `"hi"`. -/
theorem encode_message_parse_roundtrip_witness :
    parse_message (encode_message (.FileOffer "a" 5)) = .FileOffer "a" 5 ∧
    parse_message (utf8Encode "hi") = .Text "hi" :=
  ⟨encode_message_parse_roundtrip.1 (.FileOffer "a" 5) (by decide) (by decide),
   encode_message_parse_roundtrip.2.2 "hi" (by decide)⟩

/-! ## File transfer engine state (file_transfer.rs)

The sink and source file handles are modelled in memory: the receiver sink
is the byte list written so far, the sender source is the unread remainder
of the file, fixed at its open-time contents. -/

/-- Receiver side of a transfer (`IncomingFile`). -/
structure IncomingFile where
  size : Nat
  received : Nat
  sink : List Nat
deriving DecidableEq

/-- Mirrors `IncomingFile::begin`: fresh empty sink, `received = 0` (the name
sanitization and path pick are separate, see `sanitize_filename`). -/
def IncomingFile.begin (size : Nat) : IncomingFile :=
  ⟨size, 0, []⟩

/-- Mirrors `IncomingFile::write_chunk` (lines 120-124): append the chunk to the sink
and add its length to `received`.  The source has no check against `size`. -/
def IncomingFile.write_chunk (f : IncomingFile) (data : List Nat) : IncomingFile :=
  { f with sink := f.sink ++ data, received := f.received + data.length }

/-- Sender side of a transfer (`OutgoingFile`). -/
structure OutgoingFile where
  size : Nat
  sent : Nat
  content : List Nat
deriving DecidableEq

/-- Mirrors `OutgoingFile::open`: `size` comes from `fs::metadata`, which for a file
holding `content` is `content.length`. -/
def OutgoingFile.open (content : List Nat) : OutgoingFile :=
  ⟨content.length, 0, content⟩

/-- Mirrors `OutgoingFile::read_next_chunk` (lines 164-173): read up to `CHUNK_SIZE`
bytes; a 0-byte read means EOF (`none`); otherwise add the byte count to
`sent` and advance the reader. -/
def OutgoingFile.read_next_chunk (f : OutgoingFile) : Option (List Nat) × OutgoingFile :=
  let buf := f.content.take CHUNK_SIZE
  if buf.length = 0 then (none, f)
  else (some buf,
    { f with sent := f.sent + buf.length, content := f.content.drop buf.length })

/-- C2 counterexample: for an accepted zero-size offer (`IncomingFile.begin 0`,
where `bytes_received ≤ total_size` holds), appending a received 1-byte chunk
yields `bytes_received = 1 > 0 = total_size` — `write_chunk` does not
preserve the claimed receiver invariant. -/
theorem write_chunk_exceeds_size :
    ((IncomingFile.begin 0).write_chunk [97]).received = 1 ∧
    ¬ ((IncomingFile.begin 0).write_chunk [97]).received ≤
        ((IncomingFile.begin 0).write_chunk [97]).size := by
  decide

/-- C2 (amended): on the sender, `sent + remaining = size` holds at open and
is preserved by `read_next_chunk`, so `bytes_sent ≤ total_size` throughout;
on the receiver, `write_chunk` adds the chunk length to `received`
unconditionally, so `bytes_received ≤ total_size` is preserved only when the
incoming chunk still fits (`received + len(chunk) ≤ size`) — the receiver
itself enforces no bound. -/
theorem transfer_counters_bounded :
    (∀ content : List Nat,
      (OutgoingFile.open content).sent + (OutgoingFile.open content).content.length =
        (OutgoingFile.open content).size) ∧
    (∀ f : OutgoingFile, f.sent + f.content.length = f.size →
      (f.read_next_chunk.2.sent + f.read_next_chunk.2.content.length =
        f.read_next_chunk.2.size) ∧
      f.read_next_chunk.2.sent ≤ f.read_next_chunk.2.size) ∧
    (∀ (f : IncomingFile) (data : List Nat),
      (f.write_chunk data).received = f.received + data.length ∧
      (f.received + data.length ≤ f.size →
        (f.write_chunk data).received ≤ (f.write_chunk data).size)) := by
  refine ⟨fun content => by simp [OutgoingFile.open], ?_, ?_⟩
  · intro f hinv
    rw [OutgoingFile.read_next_chunk]
    have hlen := List.length_take CHUNK_SIZE f.content
    split
    · dsimp only
      exact ⟨hinv, by omega⟩
    · dsimp only
      simp only [List.length_drop]
      constructor <;> omega
  · intro f data
    refine ⟨rfl, fun h => ?_⟩
    simpa [IncomingFile.write_chunk] using h

/-- C2 witness: the amended statement at a 3-byte source file and at a
receiver of size 5 taking a 1-byte chunk. -/
theorem transfer_counters_bounded_witness :
    (OutgoingFile.open [1, 2, 3]).read_next_chunk.2.sent ≤
      (OutgoingFile.open [1, 2, 3]).read_next_chunk.2.size ∧
    ((IncomingFile.begin 5).write_chunk [9]).received ≤
      ((IncomingFile.begin 5).write_chunk [9]).size :=
  ⟨(transfer_counters_bounded.2.1 (OutgoingFile.open [1, 2, 3]) (by decide)).2,
   (transfer_counters_bounded.2.2 (IncomingFile.begin 5) [9]).2 (by decide)⟩

/-! ## Filename sanitization (file_transfer.rs `sanitize_filename`) -/

/-- The nine characters `sanitize_filename` replaces with underscores. -/
def badChars : List Char := ['/', '\\', ':', '*', '?', '"', '<', '>', '|']

/-- Split a character list on a separator character. -/
def splitOnChar (sep : Char) : List Char → List (List Char)
  | [] => [[]]
  | c :: rest =>
    match splitOnChar sep rest with
    | [] => [[]]
    | grp :: groups => if c = sep then [] :: grp :: groups else (c :: grp) :: groups

/-- Mirrors `Path::new(name).file_name()` on Unix: the final path component, with
interior empty and `.` components skipped (as `std::path::Components` does);
`none` when no component remains or the path ends in `..`. -/
def fileName (s : String) : Option String :=
  match ((splitOnChar '/' s.data).filter
      (fun c => decide (c ≠ [] ∧ c ≠ ['.']))).getLast? with
  | none => none
  | some c => if c = ['.', '.'] then none else some ⟨c⟩

/-- Mirrors the replacement call of the source: each of the nine listed
characters becomes an underscore. -/
def replaceBadChars (s : String) : String :=
  ⟨s.data.map (fun c => if c ∈ badChars then '_' else c)⟩

/-- file_transfer.rs `sanitize_filename` (lines 183-190): basename, falling
back to "unnamed", then character replacement. -/
def sanitize_filename (name : String) : String :=
  replaceBadChars ((fileName name).getD "unnamed")

theorem splitOnChar_ne_nil (sep : Char) (l : List Char) : splitOnChar sep l ≠ [] := by
  cases l with
  | nil => simp [splitOnChar]
  | cons c rest =>
    rw [splitOnChar]
    split
    · simp
    · split <;> simp

theorem splitOnChar_cons (sep c : Char) (rest g : List Char)
    (gs : List (List Char)) (h : splitOnChar sep rest = g :: gs) :
    splitOnChar sep (c :: rest) =
      if c = sep then [] :: g :: gs else (c :: g) :: gs := by
  rw [splitOnChar, h]

theorem splitOnChar_append (sep : Char) (a b : List Char) :
    splitOnChar sep (a ++ sep :: b) = splitOnChar sep a ++ splitOnChar sep b := by
  induction a with
  | nil =>
    rw [List.nil_append]
    cases hb : splitOnChar sep b with
    | nil => exact absurd hb (splitOnChar_ne_nil sep b)
    | cons g gs =>
      rw [splitOnChar_cons sep sep b g gs hb, if_pos rfl]
      rfl
  | cons c a ih =>
    rw [List.cons_append]
    cases ha : splitOnChar sep a with
    | nil => exact absurd ha (splitOnChar_ne_nil sep a)
    | cons g gs =>
      rw [splitOnChar_cons sep c (a ++ sep :: b) g (gs ++ splitOnChar sep b)
          (by rw [ih, ha]; rfl),
        splitOnChar_cons sep c a g gs ha]
      by_cases hc : c = sep <;> simp [hc]

theorem replaceBadChars_data (s : String) :
    (replaceBadChars s).data =
      s.data.map (fun c => if c ∈ badChars then '_' else c) := rfl

theorem fileName_append_dir (d s c : String) (h : fileName s = some c) :
    fileName (d ++ "/" ++ s) = some c := by
  rw [fileName] at h
  rcases hg : ((splitOnChar '/' s.data).filter
      (fun c => decide (c ≠ [] ∧ c ≠ ['.']))).getLast? with _ | cl
  · rw [hg] at h
    exact absurd h (by simp)
  · rw [hg] at h
    dsimp only at h
    by_cases hdot : cl = ['.', '.']
    · rw [if_pos hdot] at h
      exact absurd h (by simp)
    · rw [if_neg hdot] at h
      have hdata : (d ++ "/" ++ s).data = d.data ++ '/' :: s.data := by
        rw [String.data_append, String.data_append]
        simp [List.append_assoc]
      have hne : (splitOnChar '/' s.data).filter
          (fun c => decide (c ≠ [] ∧ c ≠ ['.'])) ≠ [] := by
        intro hnil
        rw [hnil] at hg
        exact absurd hg (by simp)
      rw [fileName, hdata, splitOnChar_append, List.filter_append,
        List.getLast?_append_of_ne_nil _ hne, hg]
      show (if cl = ['.', '.'] then none else some (⟨cl⟩ : String)) = some c
      rw [if_neg hdot]
      exact h

/-- C9.  `sanitize_filename`: the result contains none of the nine forbidden
characters; only the basename matters (prepending any directory leaves the
result unchanged whenever the path has a final normal component); and the
empty input yields "unnamed". -/
theorem sanitize_filename_spec :
    (∀ (s : String) (c : Char), c ∈ (sanitize_filename s).data → c ∉ badChars) ∧
    (∀ d s c, fileName s = some c →
      sanitize_filename (d ++ "/" ++ s) = sanitize_filename s) ∧
    sanitize_filename "" = "unnamed" := by
  refine ⟨?_, ?_, by decide⟩
  · intro s c hc
    rw [sanitize_filename, replaceBadChars_data] at hc
    rw [List.mem_map] at hc
    obtain ⟨x, hx, rfl⟩ := hc
    by_cases hb : x ∈ badChars
    · rw [if_pos hb]
      decide
    · rw [if_neg hb]
      exact hb
  · intro d s c h
    rw [sanitize_filename, sanitize_filename, fileName_append_dir d s c h, h]

/-- C9 witness: the basename of `"dir/file.txt"` is `"file.txt"`, so both
paths sanitize identically. -/
theorem sanitize_filename_spec_witness :
    sanitize_filename ("dir" ++ "/" ++ "file.txt") = sanitize_filename "file.txt" :=
  sanitize_filename_spec.2.1 "dir" "file.txt" "file.txt" (by decide)

/-! ## Transfer progress rendering (tui.rs) -/

/-- tui.rs `TransferProgress` (lines 18-22). -/
structure TransferProgress where
  name : String
  size : Nat
  transferred : Nat

/-- Rust integer division panics on a zero divisor; model the partiality
with `Option`. -/
def checkedDiv (a b : Nat) : Option Nat :=
  if b = 0 then none else some (a / b)

/-- tui.rs `TransferProgress::pct` (lines 24-32): 100 when `size == 0`
(without dividing), else `(transferred * 100 / size) as u16`. -/
def TransferProgress.pct (t : TransferProgress) : Option Nat :=
  if t.size = 0 then some 100
  else (checkedDiv (t.transferred * 100) t.size).map (· % 2 ^ 16)

/-- The filled-cell count of the progress bar in `App::draw_transfer_modal`
(tui.rs lines 379-391): `bar_inner` when `size == 0`, else
`bar_inner * transferred / size`. -/
def transferModalFilled (t : TransferProgress) (barInner : Nat) : Option Nat :=
  if t.size = 0 then some barInner
  else checkedDiv (barInner * t.transferred) t.size

/-- C10.  Progress rendering is total: `pct` and the modal fill both return a
value for every state (never a division by zero), and for a zero-size
transfer the guards return 100 and a full bar respectively. -/
theorem transfer_progress_total (t : TransferProgress) (barInner : Nat) :
    (∃ n, t.pct = some n) ∧
    (∃ m, transferModalFilled t barInner = some m) ∧
    (t.size = 0 → t.pct = some 100 ∧ transferModalFilled t barInner = some barInner) := by
  rw [TransferProgress.pct, transferModalFilled]
  by_cases h : t.size = 0
  · simp [h]
  · simp [h, checkedDiv]

/-- C10 witness: a zero-size transfer state renders as 100% with a full bar. -/
theorem transfer_progress_total_witness :
    (∃ n, TransferProgress.pct ⟨"f", 0, 3⟩ = some n) ∧
    (∃ m, transferModalFilled ⟨"f", 0, 3⟩ 40 = some m) ∧
    (TransferProgress.pct ⟨"f", 0, 3⟩ = some 100 ∧
      transferModalFilled ⟨"f", 0, 3⟩ 40 = some 40) :=
  ⟨(transfer_progress_total ⟨"f", 0, 3⟩ 40).1,
   (transfer_progress_total ⟨"f", 0, 3⟩ 40).2.1,
   (transfer_progress_total ⟨"f", 0, 3⟩ 40).2.2 rfl⟩

/-! ## Incremental Noise receive (noise_peer.rs `NoisePeer::recv`, lines 58-91)

The carry buffer `read_buf` persists across calls (field of `NoisePeer`,
lines 4-8).  The stream is modelled as a list of chunk reads (`supply`):
each entry is the block one `stream.read` call returns, an empty block
meaning the peer closed the connection.  The Noise transport decryption
(`transport.read_message`) is abstracted as a fallible function applied to
the extracted ciphertext frame. -/

/-- The two fill loops of `recv` (lines 59-66 and 75-82): extend the carry
with stream reads until it holds `target` bytes; a 0-byte read errors out. -/
def fillTo (target : Nat) (eofMsg : String) :
    List Nat → List (List Nat) → Except String (List Nat × List (List Nat))
  | buf, supply =>
    if target ≤ buf.length then .ok (buf, supply)
    else
      match supply with
      | [] => .error eofMsg
      | chunk :: rest =>
        if chunk.length = 0 then .error eofMsg
        else fillTo target eofMsg (buf ++ chunk) rest

/-- Mirrors `NoisePeer::recv`: fill the carry to 4 bytes, read the big-endian length,
reject lengths over 65535, fill the carry to `4 + len` bytes, split off the
ciphertext, drain exactly `4 + len` bytes, and decrypt. -/
def NoisePeer.recv (decrypt : List Nat → Except String (List Nat))
    (buf : List Nat) (supply : List (List Nat)) :
    Except String (List Nat × List Nat × List (List Nat)) :=
  match fillTo 4 "connection closed" buf supply with
  | .error e => .error e
  | .ok (buf1, supply1) =>
    if 65535 < u32FromBeBytes (buf1.take 4) then .error "frame too large"
    else
      match fillTo (4 + u32FromBeBytes (buf1.take 4))
          "connection closed mid-frame" buf1 supply1 with
      | .error e => .error e
      | .ok (buf2, supply2) =>
        match decrypt ((buf2.drop 4).take (u32FromBeBytes (buf1.take 4))) with
        | .error e => .error e
        | .ok pt =>
          .ok (pt, buf2.drop (4 + u32FromBeBytes (buf1.take 4)), supply2)

theorem fillTo_ok (target : Nat) (msg : String) (buf : List Nat)
    (supply : List (List Nat)) (buf' : List Nat) (supply' : List (List Nat))
    (h : fillTo target msg buf supply = .ok (buf', supply')) :
    ∃ used, supply = used ++ supply' ∧ buf' = buf ++ used.flatten ∧
      target ≤ buf'.length := by
  induction supply generalizing buf with
  | nil =>
    rw [fillTo] at h
    split at h
    · rename_i hc
      injection h with h2
      injection h2 with hbuf hsup
      subst hbuf
      subst hsup
      exact ⟨[], rfl, by simp, hc⟩
    · simp at h
  | cons chunk rest ih =>
    rw [fillTo] at h
    split at h
    · rename_i hc
      injection h with h2
      injection h2 with hbuf hsup
      subst hbuf
      subst hsup
      exact ⟨[], rfl, by simp, hc⟩
    · split at h
      · simp at h
      · obtain ⟨used, hs, hb, hl⟩ := ih (buf ++ chunk) h
        exact ⟨chunk :: used, by rw [hs, List.cons_append],
          by rw [hb, List.flatten_cons, List.append_assoc], hl⟩

theorem fillTo_of_le (target : Nat) (msg : String) (buf : List Nat)
    (supply : List (List Nat)) (h : target ≤ buf.length) :
    fillTo target msg buf supply = .ok (buf, supply) := by
  rw [fillTo.eq_def]
  dsimp only
  rw [if_pos h]

/-- C6.  The incremental reader is sound and complete for whole frames.
Soundness: whenever `recv` yields a frame, the carry plus the consumed
stream chunks decompose as `pre ++ ct ++ newBuf` where `pre` is the 4-byte
length header, `ct` is exactly the declared number of payload bytes (at most
65535) fed to the transport, and `newBuf` — the leftover bytes — becomes the
carry for the next call; so a partial read never yields a partial frame, and
exactly `4 + len` bytes are drained.  Completeness: a carry already holding
`be_u32(len) || frame || rest` yields that frame without reading the stream,
leaving exactly `rest` in the carry. -/
theorem noisepeer_recv_incremental :
    (∀ (decrypt : List Nat → Except String (List Nat)) (buf : List Nat)
      (supply : List (List Nat)) (pt newBuf : List Nat) (supply' : List (List Nat)),
      NoisePeer.recv decrypt buf supply = .ok (pt, newBuf, supply') →
      ∃ used pre ct, supply = used ++ supply' ∧
        buf ++ used.flatten = pre ++ (ct ++ newBuf) ∧
        pre.length = 4 ∧ ct.length = u32FromBeBytes pre ∧
        u32FromBeBytes pre ≤ 65535 ∧ decrypt ct = .ok pt) ∧
    (∀ (decrypt : List Nat → Except String (List Nat)) (frame rest : List Nat)
      (supply : List (List Nat)) (pt : List Nat),
      frame.length ≤ 65535 → decrypt frame = .ok pt →
      NoisePeer.recv decrypt (u32ToBeBytes frame.length ++ (frame ++ rest)) supply =
        .ok (pt, rest, supply)) := by
  constructor
  · intro decrypt buf supply pt newBuf supply' h
    rw [NoisePeer.recv] at h
    rcases h1 : fillTo 4 "connection closed" buf supply with e | p1
    · rw [h1] at h
      simp at h
    · obtain ⟨buf1, supply1⟩ := p1
      rw [h1] at h
      dsimp only at h
      split at h
      · simp at h
      · rename_i hL
        rcases h2 : fillTo (4 + u32FromBeBytes (buf1.take 4))
            "connection closed mid-frame" buf1 supply1 with e | p2
        · rw [h2] at h
          simp at h
        · obtain ⟨buf2, supply2⟩ := p2
          rw [h2] at h
          dsimp only at h
          rcases h3 : decrypt ((buf2.drop 4).take (u32FromBeBytes (buf1.take 4)))
            with e | pt0
          · rw [h3] at h
            simp at h
          · rw [h3] at h
            dsimp only at h
            injection h with h4
            injection h4 with hpt h5
            injection h5 with hnb hsup
            obtain ⟨u1, hs1, hb1, hl1⟩ := fillTo_ok _ _ _ _ _ _ h1
            obtain ⟨u2, hs2, hb2, hl2⟩ := fillTo_ok _ _ _ _ _ _ h2
            have htake4 : buf2.take 4 = buf1.take 4 := by
              rw [hb2, List.take_append_of_le_length hl1]
            refine ⟨u1 ++ u2, buf2.take 4,
              (buf2.drop 4).take (u32FromBeBytes (buf1.take 4)),
              ?_, ?_, ?_, ?_, ?_, ?_⟩
            · rw [hs1, hs2, ← hsup, List.append_assoc]
            · rw [List.flatten_append, ← List.append_assoc, ← hb1, ← hb2, ← hnb,
                List.drop_take_append_drop, List.take_append_drop]
            · rw [List.length_take]
              omega
            · rw [htake4, List.length_take, List.length_drop]
              omega
            · rw [htake4]
              omega
            · rw [← hpt]
              exact h3
  · intro decrypt frame rest supply pt hle hdec
    have h4 : 4 ≤ (u32ToBeBytes frame.length ++ (frame ++ rest)).length := by
      simp [u32ToBeBytes]
    have htake : (u32ToBeBytes frame.length ++ (frame ++ rest)).take 4 =
        u32ToBeBytes frame.length := by
      rw [← length_u32ToBeBytes frame.length, List.take_left]
    have hL : u32FromBeBytes ((u32ToBeBytes frame.length ++ (frame ++ rest)).take 4) =
        frame.length := by
      rw [htake]
      exact u32FromBeBytes_u32ToBeBytes _ (by omega)
    have hlen2 : 4 + frame.length ≤ (u32ToBeBytes frame.length ++ (frame ++ rest)).length := by
      simp [u32ToBeBytes]
      omega
    have hdropA : (u32ToBeBytes frame.length ++ (frame ++ rest)).drop 4 = frame ++ rest := by
      rw [← length_u32ToBeBytes frame.length, List.drop_left]
    have hdropB : (u32ToBeBytes frame.length ++ (frame ++ rest)).drop (4 + frame.length) =
        rest := by
      rw [← List.append_assoc,
        show 4 + frame.length = (u32ToBeBytes frame.length ++ frame).length by
          rw [List.length_append, length_u32ToBeBytes],
        List.drop_left]
    rw [NoisePeer.recv, fillTo_of_le 4 _ _ _ h4]
    dsimp only
    rw [hL, if_neg (by omega), fillTo_of_le _ _ _ _ hlen2]
    dsimp only
    rw [hdropA, List.take_left, hdec]
    dsimp only
    rw [hdropB]

/-- C6 witness: a carry already holding the frame `[42]` (header `be_u32 1`)
followed by the byte `7` yields `[42]`, leaves `[7]`, and consumes nothing
from the stream. -/
theorem noisepeer_recv_incremental_witness :
    NoisePeer.recv (fun ct => Except.ok ct)
      (u32ToBeBytes (List.length [42]) ++ ([42] ++ [7])) [[5]] =
      .ok ([42], [7], [[5]]) :=
  noisepeer_recv_incremental.2 (fun ct => Except.ok ct) [42] [7] [[5]] [42]
    (by decide) rfl

/-! ## Post-handshake authentication and the session drivers (main.rs) -/

/-- Modelled from the spec: `auth_initiator` / `auth_responder` are invoked
on `NoisePeer` by main.rs (lines 414 and 536) but their definitions are not
among the sources.  Per §4.3 both sides must prove knowledge of the same
shared secret (`none` = side not requiring auth); on mismatch — secrets
unequal, or one side unauthenticated while the other requires auth — the
exchange fails and the driver surfaces "authentication failed". -/
def auth_exchange (mine peer : Option String) : Except String Unit :=
  if mine = peer then .ok () else .error "authentication failed"

/-- Outcome of `run_initiator` after a successful handshake: `chat_loop`
(main.rs lines 45-374, the only site where application frames are sent or
received) either runs or is never entered. -/
inductive InitiatorOutcome where
  | authFailed (e : String)
  | chatLoop
deriving DecidableEq

/-- main.rs lines 409-415: the initiator builds `auth_pw` from `auth.enabled`
and the configured password, runs `auth_initiator`, and an auth error
propagates with `?` before `chat_loop` is called. -/
def run_initiator (authEnabled : Bool) (password : String)
    (peerSecret : Option String) : InitiatorOutcome :=
  let auth_pw := if authEnabled then some password else none
  match auth_exchange auth_pw peerSecret with
  | .error e => .authFailed e
  | .ok _ => .chatLoop

/-- Outcome of one accepted connection inside `run_responder`. -/
inductive ResponderOutcome where
  | authFailedKeepListening (e : String)
  | chatLoop
deriving DecidableEq

/-- main.rs lines 531-542: the responder side of one accepted connection; an
auth error prints "authentication failed" and `continue`s the accept loop
without entering `chat_loop`. -/
def run_responder_connection (authEnabled : Bool) (password : String)
    (peerSecret : Option String) : ResponderOutcome :=
  let auth_pw := if authEnabled then some password else none
  match auth_exchange auth_pw peerSecret with
  | .error e => .authFailedKeepListening e
  | .ok _ => .chatLoop

/-- C3.  When the auth configurations of the two sides mismatch (unequal secrets,
or one side unauthenticated while the other requires auth), both drivers
finish the connection without ever entering `chat_loop` — the sole site of
application sends and receives — so no application frame crosses the channel
in either direction. -/
theorem auth_mismatch_no_chat (authEnabled : Bool) (password : String)
    (peerSecret : Option String)
    (h : (if authEnabled then some password else none) ≠ peerSecret) :
    run_initiator authEnabled password peerSecret =
      .authFailed "authentication failed" ∧
    run_responder_connection authEnabled password peerSecret =
      .authFailedKeepListening "authentication failed" := by
  have he : auth_exchange (if authEnabled then some password else none) peerSecret =
      .error "authentication failed" := by
    rw [auth_exchange, if_neg h]
  rw [run_initiator, run_responder_connection]
  rw [he]
  exact ⟨rfl, rfl⟩

/-- C3 witness: auth enabled with password "alpha" against a peer holding
"beta". -/
theorem auth_mismatch_no_chat_witness :
    run_initiator true "alpha" (some "beta") = .authFailed "authentication failed" ∧
    run_responder_connection true "alpha" (some "beta") =
      .authFailedKeepListening "authentication failed" :=
  auth_mismatch_no_chat true "alpha" (some "beta") (by decide)

/-! ## Encrypted history store (storage.rs)

Argon2id and XChaCha20-Poly1305 are external crates.  They are modelled as
an ideal KDF and an ideal AEAD: a derived key is the opaque pair
(passphrase, salt) — deterministic and injective — and a sealed blob opens
exactly under its sealing key, yielding the sealed plaintext; under any
other key `decrypt` fails with the wrong-passphrase error of the source.
Randomness (salt, nonces) is passed in by the caller.  The SQLite tables are
in-memory lists; `ORDER BY timestamp ASC` is a stable sort on the timestamp
column. -/

structure StorageKey where
  passphrase : String
  salt : List Nat
deriving DecidableEq

/-- Mirrors `derive_key` (storage.rs lines 9-15), idealized. -/
def derive_key (passphrase : String) (salt : List Nat) : StorageKey :=
  ⟨passphrase, salt⟩

/-- An AEAD blob (`nonce(24) || ciphertext_with_tag`), symbolic. -/
inductive Blob where
  | sealed (key : StorageKey) (nonce : List Nat) (plaintext : List Nat)
deriving DecidableEq

/-- The key a blob was sealed under. -/
def Blob.sealKey : Blob → StorageKey
  | .sealed k _ _ => k

/-- The plaintext inside a blob. -/
def Blob.plaintext : Blob → List Nat
  | .sealed _ _ pt => pt

/-- Mirrors `encrypt` (storage.rs lines 17-28): seal under the key with the fresh
nonce drawn by the caller. -/
def encrypt (key : StorageKey) (nonce : List Nat) (plaintext : List Nat) : Blob :=
  .sealed key nonce plaintext

/-- Mirrors `decrypt` (storage.rs lines 30-41): ideal AEAD open. -/
def decrypt (key : StorageKey) (data : Blob) : Except String (List Nat) :=
  match data with
  | .sealed k _ pt =>
    if k = key then .ok pt else .error "decryption failed, wrong passphrase?"

inductive MessageDirection where
  | Sent
  | Received
deriving DecidableEq

/-- storage.rs lines 161-166. -/
def MessageDirection.as_str : MessageDirection → String
  | .Sent => "sent"
  | .Received => "received"

/-- storage.rs lines 168-173: anything but "sent" reads back as Received. -/
def MessageDirection.from_str (s : String) : MessageDirection :=
  if s = "sent" then .Sent else .Received

/-- A row of the `meta` table: `salt`, `check_blob`. -/
structure MetaRow where
  salt : List Nat
  check_blob : Blob
deriving DecidableEq

/-- A row of the `messages` table. -/
structure MessageRow where
  direction : String
  content : Blob
  timestamp : Int
deriving DecidableEq

/-- The database file: `meta` holds at most one row; `messages` is kept in
insertion (rowid) order. -/
structure Database where
  meta : Option MetaRow
  messages : List MessageRow
deriving DecidableEq

/-- A decrypted history record. -/
structure Message where
  direction : MessageDirection
  content : List Nat
  timestamp : Int
deriving DecidableEq

/-- An open store: the connection plus the derived key (storage.rs 43-46). -/
structure Storage where
  key : StorageKey
deriving DecidableEq

/-- The sentinel sealed into the verifier blob (`b"circuitchat"`). -/
def sentinel : List Nat := utf8Encode "circuitchat"

/-- Mirrors `Storage::open` (storage.rs lines 49-97).  Passing `db = none` is a missing
database file (`is_new`): generate a salt, derive the key, seal the sentinel,
insert the meta row.  Otherwise read salt and verifier from `meta`, derive
the key from the supplied passphrase and the stored salt, and attempt to
open the verifier; failure propagates with `?` and no store is returned —
the `messages` rows are never touched by `open`. -/
def Storage.open (db : Option Database) (passphrase : String)
    (freshSalt freshNonce : List Nat) : Except String (Storage × Database) :=
  match db with
  | none =>
    let key := derive_key passphrase freshSalt
    let check := encrypt key freshNonce sentinel
    .ok (⟨key⟩, ⟨some ⟨freshSalt, check⟩, []⟩)
  | some d =>
    match d.meta with
    | none => .error "missing meta row"
    | some m =>
      let key := derive_key passphrase m.salt
      match decrypt key m.check_blob with
      | .error e => .error e
      | .ok _ => .ok (⟨key⟩, d)

/-- Mirrors `Storage::save_message` (storage.rs lines 99-116): seal the content under
the store key with a fresh nonce and append the row (timestamp = now). -/
def Storage.save_message (st : Storage) (db : Database)
    (direction : MessageDirection) (content : List Nat)
    (timestamp : Int) (nonce : List Nat) : Database :=
  { db with messages :=
      db.messages ++ [⟨direction.as_str, encrypt st.key nonce content, timestamp⟩] }

/-- The decrypt-and-collect loop of `load_history` (storage.rs lines
127-135): any decrypt failure aborts the whole load via `?`. -/
def decryptRows (key : StorageKey) : List MessageRow → Except String (List Message)
  | [] => .ok []
  | r :: rest =>
    match decrypt key r.content with
    | .error e => .error e
    | .ok content =>
      match decryptRows key rest with
      | .error e => .error e
      | .ok tail =>
        .ok (⟨MessageDirection.from_str r.direction, content, r.timestamp⟩ :: tail)

/-- Mirrors `Storage::load_history` (storage.rs lines 118-138): select all rows
ordered by timestamp ascending, then decrypt each in order. -/
def Storage.load_history (st : Storage) (db : Database) : Except String (List Message) :=
  decryptRows st.key
    (db.messages.insertionSort (fun a b => a.timestamp ≤ b.timestamp))

/-- C7.  Creating a store with passphrase `p` writes a meta row whose
verifier is sealed under `derive_key p salt`; reopening that database (with
any message rows) under any `p' ≠ p` fails with the wrong-passphrase error:
no store value is produced and the message rows are not read. -/
theorem storage_open_wrong_passphrase (p p' : String)
    (salt nonce s2 n2 : List Nat) (rows : List MessageRow) (h : p' ≠ p) :
    Storage.open none p salt nonce =
      .ok (⟨derive_key p salt⟩,
        ⟨some ⟨salt, encrypt (derive_key p salt) nonce sentinel⟩, []⟩) ∧
    Storage.open
        (some ⟨some ⟨salt, encrypt (derive_key p salt) nonce sentinel⟩, rows⟩)
        p' s2 n2 =
      .error "decryption failed, wrong passphrase?" := by
  refine ⟨rfl, ?_⟩
  rw [Storage.open]
  dsimp only
  have hkey : derive_key p salt ≠ derive_key p' salt := by
    rw [derive_key, derive_key]
    intro hc
    exact h (StorageKey.mk.injEq .. ▸ hc).1.symm
  rw [show decrypt (derive_key p' salt) (encrypt (derive_key p salt) nonce sentinel) =
      .error "decryption failed, wrong passphrase?" by
    rw [encrypt, decrypt, if_neg hkey]]

/-- C7 witness: a store created with "p1" and reopened with "p2". -/
theorem storage_open_wrong_passphrase_witness :
    Storage.open none "p1" [1] [2] =
      .ok (⟨derive_key "p1" [1]⟩,
        ⟨some ⟨[1], encrypt (derive_key "p1" [1]) [2] sentinel⟩, []⟩) ∧
    Storage.open
        (some ⟨some ⟨[1], encrypt (derive_key "p1" [1]) [2] sentinel⟩, []⟩)
        "p2" [] [] =
      .error "decryption failed, wrong passphrase?" :=
  storage_open_wrong_passphrase "p1" "p2" [1] [2] [] [] [] (by decide)

/-- The arguments of one `save_message` call (the nonce is the randomness
the call draws). -/
structure SaveReq where
  direction : MessageDirection
  content : List Nat
  timestamp : Int
  nonce : List Nat
deriving DecidableEq

/-- The stored row one save produces under store key `key`. -/
def rowOf (key : StorageKey) (s : SaveReq) : MessageRow :=
  ⟨s.direction.as_str, encrypt key s.nonce s.content, s.timestamp⟩

/-- The record a save should read back as. -/
def toMessage (s : SaveReq) : Message :=
  ⟨s.direction, s.content, s.timestamp⟩

/-- The record a stored row decrypts to (when its blob opens). -/
def msgOfRow (r : MessageRow) : Message :=
  ⟨MessageDirection.from_str r.direction, r.content.plaintext, r.timestamp⟩

/-- Run a sequence of `save_message` calls in order. -/
def saveAll (st : Storage) (db : Database) : List SaveReq → Database
  | [] => db
  | s :: rest =>
    saveAll st (st.save_message db s.direction s.content s.timestamp s.nonce) rest

theorem saveAll_messages (st : Storage) (db : Database) (saves : List SaveReq) :
    (saveAll st db saves).messages = db.messages ++ saves.map (rowOf st.key) := by
  induction saves generalizing db with
  | nil => simp [saveAll]
  | cons s rest ih =>
    rw [saveAll, ih]
    simp [Storage.save_message, rowOf]

theorem from_str_as_str (d : MessageDirection) :
    MessageDirection.from_str d.as_str = d := by
  cases d <;> decide

theorem decryptRows_all_sealed (key : StorageKey) (l : List MessageRow)
    (h : ∀ r ∈ l, r.content.sealKey = key) :
    decryptRows key l = .ok (l.map msgOfRow) := by
  induction l with
  | nil => rfl
  | cons r rest ih =>
    have hsk := h r (List.mem_cons_self ..)
    have hr : decrypt key r.content = .ok r.content.plaintext := by
      rcases hc : r.content with ⟨k, n, pt⟩
      rw [hc] at hsk
      dsimp only [Blob.sealKey] at hsk
      subst hsk
      simp [decrypt, Blob.plaintext]
    rw [decryptRows, hr]
    dsimp only
    rw [ih (fun r2 hr2 => h r2 (List.mem_cons_of_mem _ hr2))]
    dsimp only
    rw [List.map_cons, msgOfRow]

theorem decryptRows_error_of_mem (key : StorageKey) (l : List MessageRow)
    (r : MessageRow) (hr : r ∈ l) (hk : r.content.sealKey ≠ key) :
    ∃ e, decryptRows key l = .error e := by
  induction l with
  | nil => cases hr
  | cons a rest ih =>
    rcases List.mem_cons.mp hr with rfl | hmem
    · have hdec : decrypt key r.content = .error "decryption failed, wrong passphrase?" := by
        rcases hc : r.content with ⟨k, n, pt⟩
        rw [hc] at hk
        dsimp only [Blob.sealKey] at hk
        simp [decrypt, hk]
      exact ⟨_, by rw [decryptRows, hdec]⟩
    · rcases hc2 : decrypt key a.content with e | c
      · exact ⟨e, by rw [decryptRows, hc2]⟩
      · obtain ⟨e, he⟩ := ih hmem
        refine ⟨e, ?_⟩
        rw [decryptRows, hc2]
        dsimp only
        rw [he]

theorem msgOfRow_rowOf (key : StorageKey) (s : SaveReq) :
    msgOfRow (rowOf key s) = toMessage s := by
  rw [msgOfRow, rowOf, toMessage]
  dsimp only [encrypt, Blob.plaintext]
  rw [from_str_as_str]

/-- C8.  History round trip: starting from a store with no message rows, any
sequence of saves loads back as exactly the saved records, ordered by
timestamp ascending (a stable sort of the rows), with plaintexts
byte-identical; and if any stored blob fails to open under the store key,
`load_history` aborts with an error instead of returning a partial list. -/
theorem storage_history_roundtrip :
    (∀ (st : Storage) (m : Option MetaRow) (saves : List SaveReq),
      Storage.load_history st (saveAll st ⟨m, []⟩ saves) =
        .ok ((saves.map toMessage).insertionSort
          (fun a b => a.timestamp ≤ b.timestamp)) ∧
      List.Sorted (fun a b : Message => a.timestamp ≤ b.timestamp)
        ((saves.map toMessage).insertionSort
          (fun a b => a.timestamp ≤ b.timestamp))) ∧
    (∀ (st : Storage) (db : Database) (r : MessageRow), r ∈ db.messages →
      r.content.sealKey ≠ st.key →
      ∃ e, Storage.load_history st db = .error e) := by
  constructor
  · intro st m saves
    constructor
    · rw [Storage.load_history, saveAll_messages]
      dsimp only
      rw [List.nil_append]
      rw [decryptRows_all_sealed st.key _ (fun r hr => by
        rcases List.mem_map.mp ((List.mem_insertionSort _).mp hr) with ⟨s, hs, rfl⟩
        rfl)]
      rw [List.map_insertionSort (fun a b : MessageRow => a.timestamp ≤ b.timestamp)
        (fun a b : Message => a.timestamp ≤ b.timestamp)
        msgOfRow _ (fun a ha b hb => Iff.rfl)]
      rw [List.map_map]
      have hmm2 : (saves.map (msgOfRow ∘ rowOf st.key)) = saves.map toMessage :=
        List.map_congr_left (fun s hs => msgOfRow_rowOf st.key s)
      rw [hmm2]
    · haveI : IsTotal Message (fun a b => a.timestamp ≤ b.timestamp) :=
        ⟨fun a b => Int.le_total a.timestamp b.timestamp⟩
      haveI : IsTrans Message (fun a b => a.timestamp ≤ b.timestamp) :=
        ⟨fun _ _ _ h1 h2 => le_trans h1 h2⟩
      exact List.sorted_insertionSort _ _
  · intro st db r hr hk
    obtain ⟨e, he⟩ := decryptRows_error_of_mem st.key
      (db.messages.insertionSort (fun a b => a.timestamp ≤ b.timestamp)) r
      ((List.mem_insertionSort _).mpr hr) hk
    exact ⟨e, by rw [Storage.load_history]; exact he⟩

/-- C8 witness: one saved record loads back; a store holding a blob sealed
under a different key aborts the load. -/
theorem storage_history_roundtrip_witness :
    Storage.load_history ⟨derive_key "p" [1]⟩
        (saveAll ⟨derive_key "p" [1]⟩ ⟨none, []⟩ [⟨.Sent, [104, 105], 7, [9]⟩]) =
      .ok ((([⟨.Sent, [104, 105], 7, [9]⟩] : List SaveReq).map toMessage).insertionSort
        (fun a b => a.timestamp ≤ b.timestamp)) ∧
    ∃ e, Storage.load_history ⟨derive_key "p" [1]⟩
        ⟨none, [⟨"sent", encrypt (derive_key "q" [1]) [2] [3], 5⟩]⟩ = .error e :=
  ⟨(storage_history_roundtrip.1 ⟨derive_key "p" [1]⟩ none
      [⟨.Sent, [104, 105], 7, [9]⟩]).1,
   storage_history_roundtrip.2 ⟨derive_key "p" [1]⟩
      ⟨none, [⟨"sent", encrypt (derive_key "q" [1]) [2] [3], 5⟩]⟩
      ⟨"sent", encrypt (derive_key "q" [1]) [2] [3], 5⟩
      (List.mem_cons_self ..) (by decide)⟩

end CircuitChat
